import Mathlib

/-!
# Verification of the Zombie-Coder request-orchestration pipeline

Shallow embedding of the request-orchestration core of the repository:
the RAG chunking / context-retrieval logic (`server/rag/rag_pipeline.py`),
the bounded session history (`server/core/agent_base.py`), the tool-call
extraction / rate-limiting pipeline (`server/tools/tool_orchestrator.py`),
and the model router with health caching and fallback order
(`server/routing/model_router.py`).

Python strings are modelled as `List Char`, dictionaries as association
lists, wall-clock instants as `Nat` (only differences and comparisons are
used by the code), and floating-point similarity scores as `ℚ` (only
order comparisons are used by the routing/retrieval logic).  External
collaborators (HTTP providers, embedding provider, vector store, tool
implementations) are parameters of the embedded functions.  Potentially
non-terminating source loops are embedded with explicit fuel, returning
`none` when the fuel is exhausted.
-/

/-! ## Chunking (`RAGPipeline._split_text`, rag_pipeline.py lines 379-404)

The Python source writes the word-boundary set as `'.!?\\n '` inside a
normal string literal, so the actual character set is
`.`, `!`, `?`, `\`, `n`, ` ` (a literal backslash and the letter `n`,
not a newline). -/

def breakChars : List Char := ['.', '!', '?', '\\', 'n', ' ']

/-- `text[i] in '.!?\\n '`; the loop only evaluates it at in-range indices. -/
def isBreakAt (text : List Char) (i : Nat) : Bool :=
  match text.get? i with
  | some c => breakChars.contains c
  | none => false

/-- The inner walk `while end > start and text[end] not in '.!?\\n ': end -= 1`. -/
def walkBack (text : List Char) (start : Nat) : Nat → Nat
  | 0 => 0
  | e + 1 =>
    if start < e + 1 ∧ isBreakAt text (e + 1) = false then walkBack text start e
    else e + 1

/-- Python slicing `text[s:e]` (for `s ≤ e`). -/
def sliceTxt (text : List Char) (s e : Nat) : List Char :=
  (text.drop s).take (e - s)

/-- The chunk end chosen for a given `start`: walk back from
`start + chunk_size` to a break character, resetting to `start + chunk_size`
when the walk reaches `start` (lines 394-399). -/
def chunkEnd (text : List Char) (chunkSize start : Nat) : Nat :=
  if walkBack text start (start + chunkSize) = start then start + chunkSize
  else walkBack text start (start + chunkSize)

/-- `start = end - self.chunk_overlap if end > self.chunk_overlap else end`
(line 402). -/
def nextStart (overlap e : Nat) : Nat :=
  if overlap < e then e - overlap else e

/-- The `while start < len(text)` loop of `_split_text`, computing the
`(start, end)` index pairs of the produced chunks.  The source loop can
fail to terminate, so the embedding carries explicit fuel and returns
`none` when it is exhausted. -/
def splitRanges (text : List Char) (chunkSize overlap : Nat) :
    Nat → Nat → Option (List (Nat × Nat))
  | 0, _ => none
  | fuel + 1, start =>
    if text.length ≤ start then some []
    else if text.length ≤ start + chunkSize then some [(start, text.length)]
    else
      match splitRanges text chunkSize overlap fuel
          (nextStart overlap (chunkEnd text chunkSize start)) with
      | none => none
      | some rest => some ((start, chunkEnd text chunkSize start) :: rest)

/-- `RAGPipeline._split_text`: a document not longer than the chunk size is a
single chunk (lines 381-382); otherwise the loop produces slices
`text[start:end]` for the computed ranges. -/
def splitText (text : List Char) (chunkSize overlap fuel : Nat) :
    Option (List (List Char)) :=
  if text.length ≤ chunkSize then some [text]
  else (splitRanges text chunkSize overlap fuel 0).map
    (fun rs => rs.map (fun r => sliceTxt text r.1 r.2))

/-! ## Bounded session history
(`AgentBase._update_session_context`, agent_base.py lines 376-394):
append the new turn, then `if len(history) > 10: history = history[-10:]`. -/

def updateHistory {α : Type} (history : List α) (turn : α) : List α :=
  let h := history ++ [turn]
  if 10 < h.length then h.drop (h.length - 10) else h

/-! ## Tool orchestrator (`server/tools/tool_orchestrator.py`)

The extraction pattern in the source is the RAW string
`r'\\[TOOL:(\\w+)\\((.*?)\\)\\]'`, i.e. the compiled regex is
`\\ [TOOL:(\\w+)\\((.*?)\\)\\]` — a literal backslash followed by ONE
character from the class `{T,O,L,:,(,\,w,+,),.,*,?}` — and it has no capture
groups, so `re.findall` returns the two-character match strings, which the
loop then unpacks character by character into `(tool_name, params_str)`. -/

structure ToolCall where
  toolName : String
  parameters : List (String × String)
  callId : String
deriving DecidableEq

structure ToolResult where
  success : Bool
  payload : Option String
  error : Option String
deriving DecidableEq

/-- The character class of the compiled pattern. -/
def patternClass : List Char := ['T', 'O', 'L', ':', '(', '\\', 'w', '+', ')', '.', '*', '?']

/-- `re.findall` for the compiled pattern: scan left to right for a literal
backslash followed by one class character; matches are two characters long
and non-overlapping. -/
def findallMatches : List Char → List (Char × Char)
  | [] => []
  | [_] => []
  | a :: b :: rest =>
    if a = '\\' ∧ patternClass.contains b then (a, b) :: findallMatches rest
    else findallMatches (b :: rest)

/-- The parameter handling of `_extract_tool_calls` (lines 637-641) applied
to the one-character fragments the compiled pattern produces:
`params_str.strip()` falsy (whitespace) yields `{}` without parsing;
otherwise `json.loads("{" + c + "}")` runs, and for a single
non-whitespace character the body of the object does not begin with a
string key, so the load always raises and the call is skipped with a
warning. -/
def parseSingleParamChar (c : Char) : Option (List (String × String)) :=
  if c = ' ' ∨ c = '\t' ∨ c = '\n' ∨ c = '\r' ∨ c = '\x0b' ∨ c = '\x0c' then some []
  else none

/-- `_extract_tool_calls` (lines 623-653): find the pattern's matches,
unpack each two-character match into `(tool_name, params_str)`, parse the
fragment, and skip (never raise) on failure.  `now` stands for
`int(time.time())` in the generated call ids. -/
def extractToolCalls (now : Nat) (response : List Char) : List ToolCall :=
  (findallMatches response).enum.filterMap fun ip =>
    match parseSingleParamChar ip.2.2 with
    | some ps =>
      some { toolName := String.mk [ip.2.1], parameters := ps,
             callId := "call_" ++ toString ip.1 ++ "_" ++ toString now }
    | none => none

/-- A registered tool: `validate_parameters` and `execute`
(tool_orchestrator.py tool interface). -/
structure Tool where
  validateParams : List (String × String) → Bool
  execute : List (String × String) → ToolResult

/-- Per-session, per-tool invocation counters (`self.session_tool_counts`). -/
abbrev SessionCounts : Type := List (String × List (String × Nat))

def lookupD {β : Type} (m : List (String × β)) (k : String) (d : β) : β :=
  match m with
  | [] => d
  | kv :: rest => if kv.1 == k then kv.2 else lookupD rest k d

def hasKey {β : Type} (m : List (String × β)) (k : String) : Bool :=
  match m with
  | [] => false
  | kv :: rest => kv.1 == k || hasKey rest k

def setKey {β : Type} (m : List (String × β)) (k : String) (v : β) :
    List (String × β) :=
  match m with
  | [] => [(k, v)]
  | kv :: rest => if kv.1 == k then (k, v) :: rest else kv :: setKey rest k v

def totalCalls (counts : List (String × Nat)) : Nat :=
  (counts.map (fun kv => kv.2)).sum

/-- The session's cumulative tool-call count
(`sum(self.session_tool_counts[session_id].values())`). -/
def sessionTotal (st : SessionCounts) (sid : String) : Nat :=
  totalCalls (lookupD st sid [])

def countOf (st : SessionCounts) (sid tname : String) : Nat :=
  lookupD (lookupD st sid []) tname 0

/-- `if session_id not in self.session_tool_counts: ... = {}` (lines
686-687 and 708-709). -/
def ensureSession (st : SessionCounts) (sid : String) : SessionCounts :=
  if hasKey st sid then st else st ++ [(sid, [])]

/-- `_check_tool_limits` (lines 682-691): ensure the session entry exists,
then test `total_calls + len(tool_calls) <= max_calls`. -/
def checkToolLimits (st : SessionCounts) (sid : String) (calls : List ToolCall)
    (maxCalls : Nat) : Bool × SessionCounts :=
  (decide (sessionTotal (ensureSession st sid) sid + calls.length ≤ maxCalls),
    ensureSession st sid)

/-- `_update_session_tool_count` (lines 706-712). -/
def updateSessionToolCount (st : SessionCounts) (sid tname : String) :
    SessionCounts :=
  setKey (ensureSession st sid) sid
    (setKey (lookupD (ensureSession st sid) sid []) tname
      (lookupD (lookupD (ensureSession st sid) sid []) tname 0 + 1))

/-- `_execute_tool_call` (lines 693-704): unknown tool and invalid
parameters short-circuit to failure results. -/
def executeToolCall (tools : List (String × Tool)) (call : ToolCall) :
    ToolResult :=
  match tools.find? (fun kv => kv.1 == call.toolName) with
  | none => ⟨false, none, some ("Tool " ++ call.toolName ++ " not found")⟩
  | some kv =>
    if kv.2.validateParams call.parameters then kv.2.execute call.parameters
    else ⟨false, none, some ("Invalid parameters for tool " ++ call.toolName)⟩

/-- `_filter_tool_calls` (lines 655-680): allowed AND not restricted AND
globally enabled. -/
def filterToolCalls (calls : List ToolCall)
    (allowed restricted enabled : List String) : List ToolCall :=
  calls.filter fun c =>
    allowed.contains c.toolName && !(restricted.contains c.toolName) &&
      enabled.contains c.toolName

/-- Outcome of `process_response`: `{}`, `{"error": msg}`, or per-call-id
results. -/
inductive ProcessOutcome where
  | empty : ProcessOutcome
  | errored : String → ProcessOutcome
  | results : List (String × ToolResult) → ProcessOutcome
deriving DecidableEq

/-- The execution loop of `process_response` (lines 604-616): run each call,
record its result by call id, and bump the session counter. -/
def runCalls (tools : List (String × Tool)) (sid : String) :
    List ToolCall → SessionCounts → List (String × ToolResult) →
    List (String × ToolResult) × SessionCounts
  | [], st, acc => (acc, st)
  | c :: rest, st, acc =>
    runCalls tools sid rest (updateSessionToolCount st sid c.toolName)
      (acc ++ [(c.callId, executeToolCall tools c)])

/-- `process_response` from the permission-filtered call list onward (lines
596-617): empty-batch guard, rate-limit check, then execution. -/
def processFilteredCalls (tools : List (String × Tool)) (st : SessionCounts)
    (sid : String) (filtered : List ToolCall) (maxCalls : Nat) :
    ProcessOutcome × SessionCounts :=
  if filtered.isEmpty then (ProcessOutcome.empty, st)
  else
    match checkToolLimits st sid filtered maxCalls with
    | (ok, st1) =>
      if ok then
        match runCalls tools sid filtered st1 [] with
        | (rs, st2) => (ProcessOutcome.results rs, st2)
      else (ProcessOutcome.errored "Tool call limit exceeded for this session", st1)

/-- `process_response` (lines 574-621). -/
def processResponse (tools : List (String × Tool)) (enabled : List String)
    (now : Nat) (st : SessionCounts) (response : List Char)
    (allowed restricted : List String) (sid : String) (maxCalls : Nat) :
    ProcessOutcome × SessionCounts :=
  if (extractToolCalls now response).isEmpty then (ProcessOutcome.empty, st)
  else processFilteredCalls tools st sid
    (filterToolCalls (extractToolCalls now response) allowed restricted enabled)
    maxCalls

/-! ## Retrieval context (`RAGPipeline.retrieve_context`, rag_pipeline.py
lines 406-470)

Similarity scores (floats compared only by order) are modelled as `ℚ`.
The embedding provider, vector store and cache are external collaborators:
`retrieveContextCore` is the pure computation applied to the ranked search
results; cached strings were produced by this same computation.  The source
writes `\\n` inside normal strings, so both the per-document source tag and
the joiner contain a literal backslash and `n`, not newlines. -/

structure DocChunk where
  content : List Char
  source : String
  score : ℚ

/-- `f"[{doc.metadata.get('source', 'unknown')}]\\n{doc.content}"` (line 457):
the separator is the two characters `\\` `n`. -/
def docPart (d : DocChunk) : List Char :=
  '[' :: (String.toList d.source ++ (']' :: '\\' :: 'n' :: d.content))

/-- `"\\n\\n".join(context_parts)` (line 460): a four-character joiner. -/
def joinSep : List (List Char) → List Char
  | [] => []
  | [x] => x
  | x :: y :: rest => x ++ ('\\' :: 'n' :: '\\' :: 'n' :: joinSep (y :: rest))

/-- The greedy fill (lines 450-458): stop at the first document whose
content would push the accumulated CONTENT length over the maximum; the
accumulator counts only `len(doc.content)`, not the source tags or the
joiners. -/
def buildParts (maxLen : Nat) : List DocChunk → Nat → List (List Char)
  | [], _ => []
  | d :: ds, acc =>
    if maxLen < acc + d.content.length then []
    else docPart d :: buildParts maxLen ds (acc + d.content.length)

/-- `retrieve_context` from the ranked search results onward (lines
439-466): threshold filter, empty-result guard, greedy fill, join. -/
def retrieveContextCore (docs : List DocChunk) (threshold : ℚ) (maxLen : Nat) :
    List Char :=
  if (docs.filter fun d => decide (threshold ≤ d.score)).isEmpty then []
  else joinSep (buildParts maxLen (docs.filter fun d => decide (threshold ≤ d.score)) 0)

/-- Specification-side first-occurrence de-duplication (fold appending
unseen elements). -/
def firstOccurrences (l : List String) : List String :=
  l.foldl (fun acc x => if x ∈ acc then acc else acc ++ [x]) []

/-! ## Model router (`server/routing/model_router.py`)

`env.complete m` stands for the whole body of the per-candidate `try` block
(lines 475-499) for model key `m`: building the request, dispatching to the
provider adapter, and catching any exception inside the block — so it
always yields a `CompletionResponse` whose `error` field carries the
failure detail.  `env.probe p` stands for `provider.health_check(config)`.
`env.clock i` is the `i`-th reading of `time.time()` (a `Nat`; only
differences and comparisons are used).  The health-check call at line 471
is NOT inside the try block; in `_is_provider_healthy` the lookup
`self.providers[provider_name]` (line 531) raises `KeyError` for a
configured provider outside the built-in three, and that exception
propagates out of `get_completion`; the `Option` layer models it
(`none` = uncaught exception).  Float-valued fields that the routing logic
never inspects (temperature, response_time) are omitted. -/

structure ModelConfig where
  provider : String
  modelName : String
  apiKey : Option String
  baseUrl : String
  maxTokens : Nat
  timeout : Nat

structure CompletionResponse where
  content : String
  model : String
  provider : String
  tokensUsed : Option Nat
  success : Bool
  error : Option String
deriving DecidableEq

structure RouterEnv where
  complete : String → CompletionResponse
  probe : String → Bool
  clock : Nat → Nat

/-- `self.health_cache` and `self.last_health_check`. -/
structure HealthState where
  healthCache : List (String × Bool)
  lastCheck : List (String × Nat)

def lookupOpt {β : Type} (m : List (String × β)) (k : String) : Option β :=
  match m with
  | [] => none
  | kv :: rest => if kv.1 == k then some kv.2 else lookupOpt rest k

/-- The fixed provider registry `self.providers` (lines 339-343). -/
def builtinProviders : List String := ["openai", "anthropic", "local"]

/-- The first configuration whose provider matches (lines 524-528). -/
def firstConfigFor (cfgs : List (String × ModelConfig)) (p : String) :
    Option ModelConfig :=
  match cfgs.find? (fun kv => kv.2.provider == p) with
  | some kv => some kv.2
  | none => none

/-- The probe path of `_is_provider_healthy` (lines 523-538): with a sample
config, `self.providers[provider_name]` raises `KeyError` (`none`) for a
non-built-in provider, otherwise the probe result is stored in both maps;
without a sample config return `False` untouched. -/
def probeProvider (env : RouterEnv) (cfgs : List (String × ModelConfig))
    (st : HealthState) (now : Nat) (p : String) : Option (Bool × HealthState) :=
  match firstConfigFor cfgs p with
  | some _ =>
    if builtinProviders.contains p then
      some (env.probe p,
        ⟨setKey st.healthCache p (env.probe p), setKey st.lastCheck p now⟩)
    else none
  | none => some (false, st)

/-- `_is_provider_healthy` (lines 513-538): a cache entry younger than the
300-second TTL is returned as-is; otherwise probe. -/
def isProviderHealthy (env : RouterEnv) (cfgs : List (String × ModelConfig))
    (st : HealthState) (now : Nat) (p : String) : Option (Bool × HealthState) :=
  match lookupOpt st.healthCache p, lookupOpt st.lastCheck p with
  | some h, some t =>
    if now - t < 300 then some (h, st) else probeProvider env cfgs st now p
  | some _, none => probeProvider env cfgs st now p
  | none, _ => probeProvider env cfgs st now p

def optStr : Option String → String
  | some s => s
  | none => "None"

/-- The synthetic all-failed response (lines 501-511). -/
def allFailedResponse (lastErr : Option String) : CompletionResponse :=
  { content := "I'm sorry, I'm experiencing technical difficulties. Please try again later.",
    model := "none", provider := "none", tokensUsed := none, success := false,
    error := some ("All models failed. Last error: " ++ optStr lastErr) }

/-- The error of the last attempted model, else the default. -/
def lastErrorOf (env : RouterEnv) (tr : List String) (dflt : Option String) :
    Option String :=
  match tr.getLast? with
  | some m => (env.complete m).error
  | none => dflt

/-- The candidate loop of `get_completion` (lines 461-511).  Returns the
response (`none` = uncaught exception), the health state, and the list of
model keys on which a completion request was actually invoked. -/
def tryModels (env : RouterEnv) (cfgs : List (String × ModelConfig)) :
    List String → HealthState → Nat → Option String →
    Option CompletionResponse × HealthState × List String
  | [], st, _, lastErr => (some (allFailedResponse lastErr), st, [])
  | m :: rest, st, i, lastErr =>
    match lookupOpt cfgs m with
    | none => tryModels env cfgs rest st i lastErr
    | some cfg =>
      match isProviderHealthy env cfgs st (env.clock i) cfg.provider with
      | none => (none, st, [])
      | some (h, st1) =>
        if h then
          if (env.complete m).success then (some (env.complete m), st1, [m])
          else
            match tryModels env cfgs rest st1 (i + 1) (env.complete m).error with
            | (resp, st2, tr) => (resp, st2, m :: tr)
        else tryModels env cfgs rest st1 (i + 1) lastErr

/-- `config.routing` and the per-provider `models` lists. -/
structure RouterConfig where
  primaryProvider : String
  fallbackProviders : List String
  providerModels : List (String × List String)

def modelsOf (rc : RouterConfig) (p : String) : List String :=
  match lookupOpt rc.providerModels p with
  | some ms => ms
  | none => []

/-- Duplicate removal with a `seen` set, preserving order (lines 453-459). -/
def dedupSeen : List String → List String → List String
  | [], _ => []
  | m :: rest, seen =>
    if m ∈ seen then dedupSeen rest seen
    else m :: dedupSeen rest (m :: seen)

/-- Candidate construction of `get_completion` (lines 434-459): preferred
models, then `"provider:model"` keys of the primary provider, then of each
fallback provider in order, de-duplicated keeping first occurrences. -/
def buildCandidates (rc : RouterConfig) (preferred : List String) : List String :=
  dedupSeen
    (preferred ++
      (modelsOf rc rc.primaryProvider).map
        (fun m => rc.primaryProvider ++ ":" ++ m) ++
      (rc.fallbackProviders.map
        (fun p => (modelsOf rc p).map (fun m => p ++ ":" ++ m))).flatten)
    []

/-- `get_completion` (lines 424-511). -/
def getCompletion (env : RouterEnv) (rc : RouterConfig)
    (cfgs : List (String × ModelConfig)) (preferred : List String)
    (st : HealthState) :
    Option CompletionResponse × HealthState × List String :=
  tryModels env cfgs (buildCandidates rc preferred) st 0 none

/-! ### Specification-side predicates for the chunking claims -/

/-- Well-formedness of the index ranges produced by the `_split_text` loop
starting at position `s`: the first range starts at `s`, starts are
nondecreasing, each range begins at or before its predecessor's end (no
gap), ends are nondecreasing, and the final end is exactly the end of the
text. -/
def GoodRanges (text : List Char) : Nat → List (Nat × Nat) → Prop
  | _, [] => False
  | s, [p] => p.1 = s ∧ s < p.2 ∧ p.2 = text.length
  | s, p :: q :: rest =>
    p.1 = s ∧ s < p.2 ∧ p.2 ≤ text.length ∧ p.1 ≤ q.1 ∧ q.1 ≤ p.2 ∧ p.2 ≤ q.2 ∧
      GoodRanges text q.1 (q :: rest)

/-- Overlap sizes induced by a range list: the first chunk keeps everything
(`prev` starts at the first chunk's start); each later chunk overlaps its
predecessor on the part of the text before the predecessor's end `prev`. -/
def ovsOf : Nat → List (Nat × Nat) → List Nat
  | _, [] => []
  | prev, p :: rest => (prev - p.1) :: ovsOf p.2 rest

/-- Adjacent chunks genuinely overlap: the prefix of length `o2` removed from
each chunk equals the suffix of the same length of its predecessor. -/
def OverlapsAgree : List (List Char) → List Nat → Prop
  | c :: c2 :: crest, _ :: o2 :: orest =>
    o2 ≤ c.length ∧ o2 ≤ c2.length ∧ c2.take o2 = c.drop (c.length - o2) ∧
      OverlapsAgree (c2 :: crest) (o2 :: orest)
  | _, _ => True

/-! ### Theorems: C9 (single chunk for short documents) -/

/-- **C9.** For every document whose length is less than the configured chunk
size, `_split_text` returns exactly one chunk, identical to the input
document. -/
theorem splitText_short_doc (text : List Char) (chunkSize overlap fuel : Nat)
    (h : text.length < chunkSize) :
    splitText text chunkSize overlap fuel = some [text] := by
  unfold splitText
  rw [if_pos (Nat.le_of_lt h)]

/-- Witness for C9 at a concrete input. -/
theorem splitText_short_doc_witness :
    (String.toList "hello").length < 10 ∧
      splitText (String.toList "hello") 10 3 5 = some [String.toList "hello"] :=
  ⟨by decide, splitText_short_doc (String.toList "hello") 10 3 5 (by decide)⟩

/-! ### Theorems: C8 (FIFO history bounded by 10) -/

/-- Each update truncates to the last 10 entries (truncated subtraction makes
the `drop` a no-op when the list is short). -/
theorem updateHistory_eq {α : Type} (h : List α) (t : α) :
    updateHistory h t = (h ++ [t]).drop ((h ++ [t]).length - 10) := by
  unfold updateHistory
  by_cases h10 : 10 < (h ++ [t]).length
  · rw [if_pos h10]
  · rw [if_neg h10]
    have : (h ++ [t]).length - 10 = 0 := by omega
    rw [this, List.drop_zero]

/-- Taking the last ten elements commutes with appending. -/
theorem lastTen_append {α : Type} (xs ys : List α) :
    (xs.drop (xs.length - 10) ++ ys).drop
        ((xs.drop (xs.length - 10) ++ ys).length - 10) =
      (xs ++ ys).drop ((xs ++ ys).length - 10) := by
  simp only [List.drop_append_eq_append_drop, List.drop_drop,
    List.length_append, List.length_drop]
  have h1 : xs.length - 10 + (xs.length - (xs.length - 10) + ys.length - 10) =
      xs.length + ys.length - 10 := by omega
  have h2 : xs.length - (xs.length - 10) + ys.length - 10 -
      (xs.length - (xs.length - 10)) = xs.length + ys.length - 10 - xs.length := by
    omega
  rw [h1, h2]

/-- Folding updates from a short accumulator keeps exactly the last ten
elements of everything appended. -/
theorem foldl_updateHistory {α : Type} (ts : List α) :
    ∀ acc : List α, acc.length ≤ 10 →
      ts.foldl updateHistory acc = (acc ++ ts).drop ((acc ++ ts).length - 10) := by
  induction ts with
  | nil =>
    intro acc hacc
    simp only [List.foldl_nil, List.append_nil]
    have : acc.length - 10 = 0 := by omega
    rw [this, List.drop_zero]
  | cons t ts ih =>
    intro acc hacc
    simp only [List.foldl_cons]
    have hlen : (updateHistory acc t).length ≤ 10 := by
      rw [updateHistory_eq, List.length_drop]
      omega
    rw [ih (updateHistory acc t) hlen, updateHistory_eq, lastTen_append]
    simp [List.append_assoc]

/-- **C8.** The stored history never exceeds 10 turns after an update;
appending to a full history evicts exactly the oldest turn, preserving the
order of the rest; after 15 sequential appends the history holds the 10 most
recent turns. -/
theorem session_history_fifo :
    (∀ (α : Type) (h : List α) (t : α), (updateHistory h t).length ≤ 10) ∧
    (∀ (α : Type) (h : List α) (t : α), h.length = 10 →
      updateHistory h t = h.tail ++ [t]) ∧
    (∀ (α : Type) (ts : List α), ts.length = 15 →
      ts.foldl updateHistory [] = ts.drop 5) := by
  refine ⟨?_, ?_, ?_⟩
  · intro α h t
    rw [updateHistory_eq, List.length_drop]
    omega
  · intro α h t hlen
    rw [updateHistory_eq]
    have h11 : (h ++ [t]).length - 10 = 1 := by simp [hlen]
    rw [h11, List.drop_append_eq_append_drop, List.drop_one]
    have : 1 - h.length = 0 := by omega
    rw [this, List.drop_zero]
  · intro α ts hlen
    rw [foldl_updateHistory ts [] (by simp), List.nil_append, hlen]

/-- Witness for C8 at concrete inputs. -/
theorem session_history_fifo_witness :
    (updateHistory [0, 1, 2] 3).length ≤ 10 ∧
    ([0, 1, 2, 3, 4, 5, 6, 7, 8, 9].length = 10 ∧
      updateHistory [0, 1, 2, 3, 4, 5, 6, 7, 8, 9] 10 =
        [1, 2, 3, 4, 5, 6, 7, 8, 9] ++ [10]) ∧
    (List.range 15).foldl updateHistory [] = (List.range 15).drop 5 :=
  ⟨session_history_fifo.1 Nat [0, 1, 2] 3,
    ⟨by decide, session_history_fifo.2.1 Nat [0, 1, 2, 3, 4, 5, 6, 7, 8, 9] 10
      (by decide)⟩,
    session_history_fifo.2.2 Nat (List.range 15) (by decide)⟩

/-! ### Lemmas about the word-boundary walk (`walkBack`) -/

theorem walkBack_le (text : List Char) (s : Nat) : ∀ e, walkBack text s e ≤ e := by
  intro e
  induction e with
  | zero => simp [walkBack]
  | succ n ih =>
    simp only [walkBack]
    split
    · exact Nat.le_trans ih (Nat.le_succ n)
    · exact Nat.le_refl _

theorem le_walkBack (text : List Char) (s : Nat) :
    ∀ e, s ≤ e → s ≤ walkBack text s e := by
  intro e
  induction e with
  | zero => intro h; simpa [walkBack] using h
  | succ n ih =>
    intro hs
    simp only [walkBack]
    split
    · next hcond => exact ih (by omega)
    · exact hs

theorem walkBack_break (text : List Char) (s : Nat) :
    ∀ e, s < walkBack text s e → isBreakAt text (walkBack text s e) = true := by
  intro e
  induction e with
  | zero => intro h; simp [walkBack] at h
  | succ n ih =>
    simp only [walkBack]
    split
    · exact ih
    · next hcond =>
      intro hlt
      by_cases hb : isBreakAt text (n + 1) = false
      · exact absurd ⟨hlt, hb⟩ hcond
      · simpa using hb

theorem break_le_walkBack (text : List Char) (s b : Nat)
    (hb : isBreakAt text b = true) :
    ∀ e, s < b → b ≤ e → b ≤ walkBack text s e := by
  intro e
  induction e with
  | zero => intro h1 h2; omega
  | succ n ih =>
    intro hsb hbe
    simp only [walkBack]
    split
    · next hcond =>
      rcases Nat.lt_or_ge b (n + 1) with h | h
      · exact ih hsb (by omega)
      · have hbn : b = n + 1 := by omega
        rw [hbn] at hb
        exact absurd hcond.2 (by simp [hb])
    · exact hbe

theorem walkBack_no_break (text : List Char) (s : Nat) :
    ∀ e j, walkBack text s e < j → j ≤ e → isBreakAt text j = false := by
  intro e
  induction e with
  | zero => intro j h1 h2; simp [walkBack] at h1; omega
  | succ n ih =>
    intro j h1 h2
    by_cases hcond : s < n + 1 ∧ isBreakAt text (n + 1) = false
    · rw [walkBack, if_pos hcond] at h1
      rcases Nat.lt_or_ge j (n + 1) with h | h
      · exact ih j h1 (by omega)
      · have : j = n + 1 := by omega
        rw [this]
        exact hcond.2
    · rw [walkBack, if_neg hcond] at h1
      omega

/-! ### Lemmas about a single chunk step -/

theorem chunkEnd_bounds (text : List Char) (cs s : Nat) (hcs : 0 < cs) :
    s < chunkEnd text cs s ∧ chunkEnd text cs s ≤ s + cs := by
  unfold chunkEnd
  split
  · omega
  · next hne =>
    have h1 := le_walkBack text s (s + cs) (by omega)
    have h2 := walkBack_le text s (s + cs)
    omega

theorem nextStart_le (ov e : Nat) : nextStart ov e ≤ e := by
  unfold nextStart
  split <;> omega

/-- When the loop state maps to itself, the source loop runs forever; the
fuelled embedding returns `none` for every amount of fuel. -/
theorem splitRanges_fixpoint (text : List Char) (cs ov s : Nat)
    (h1 : ¬ text.length ≤ s) (h2 : ¬ text.length ≤ s + cs)
    (hfix : nextStart ov (chunkEnd text cs s) = s) :
    ∀ fuel, splitRanges text cs ov fuel s = none := by
  intro fuel
  induction fuel with
  | zero => rfl
  | succ n ih =>
    simp only [splitRanges]
    rw [if_neg h1, if_neg h2, hfix, ih]

/-- If the loop state moves strictly backward, it has reached a fixed point:
the chunk computed from the earlier restart position ends at the same break
character, so the state repeats forever. -/
theorem chunkEnd_back_fix (text : List Char) (cs ov s : Nat) (hcs : 0 < cs)
    (hov : ov < cs)
    (hlt : nextStart ov (chunkEnd text cs s) < s) :
    nextStart ov (chunkEnd text cs (nextStart ov (chunkEnd text cs s))) =
      nextStart ov (chunkEnd text cs s) := by
  by_cases hws : walkBack text s (s + cs) = s
  · exfalso
    have he : chunkEnd text cs s = s + cs := by unfold chunkEnd; rw [if_pos hws]
    rw [he] at hlt
    unfold nextStart at hlt
    split at hlt <;> omega
  · have he : chunkEnd text cs s = walkBack text s (s + cs) := by
      unfold chunkEnd; rw [if_neg hws]
    have hsw : s < walkBack text s (s + cs) := by
      have := le_walkBack text s (s + cs) (by omega)
      omega
    have hwle : walkBack text s (s + cs) ≤ s + cs := walkBack_le text s (s + cs)
    have hbrk : isBreakAt text (walkBack text s (s + cs)) = true :=
      walkBack_break text s (s + cs) hsw
    rw [he] at hlt ⊢
    have hovw : ov < walkBack text s (s + cs) := by
      by_contra hno
      unfold nextStart at hlt
      rw [if_neg hno] at hlt
      omega
    have hs2 : nextStart ov (walkBack text s (s + cs)) =
        walkBack text s (s + cs) - ov := by
      unfold nextStart; rw [if_pos hovw]
    rw [hs2] at hlt ⊢
    have hw2 : walkBack text (walkBack text s (s + cs) - ov)
        (walkBack text s (s + cs) - ov + cs) = walkBack text s (s + cs) := by
      have hle : walkBack text s (s + cs) ≤
          walkBack text (walkBack text s (s + cs) - ov)
            (walkBack text s (s + cs) - ov + cs) :=
        break_le_walkBack text (walkBack text s (s + cs) - ov)
          (walkBack text s (s + cs)) hbrk
          (walkBack text s (s + cs) - ov + cs) (by omega) (by omega)
      have hge : walkBack text (walkBack text s (s + cs) - ov)
          (walkBack text s (s + cs) - ov + cs) ≤ walkBack text s (s + cs) := by
        by_contra hno
        push_neg at hno
        have hbr2 := walkBack_break text (walkBack text s (s + cs) - ov)
          (walkBack text s (s + cs) - ov + cs) (by omega)
        have hle2 := walkBack_le text (walkBack text s (s + cs) - ov)
          (walkBack text s (s + cs) - ov + cs)
        have hnb := walkBack_no_break text s (s + cs)
          (walkBack text (walkBack text s (s + cs) - ov)
            (walkBack text s (s + cs) - ov + cs)) hno (by omega)
        rw [hnb] at hbr2
        exact absurd hbr2 (by simp)
      omega
    have hchnk : chunkEnd text cs (walkBack text s (s + cs) - ov) =
        walkBack text s (s + cs) := by
      unfold chunkEnd
      rw [hw2, if_neg (by omega)]
    rw [hchnk]
    exact hs2

/-- Chunk ends never decrease from one loop iteration to the next: the next
chunk, computed from the restart position, ends at or after the previous
chunk's end. -/
theorem chunkEnd_mono (text : List Char) (cs ov s : Nat) (hcs : 0 < cs)
    (hov : ov < cs) :
    chunkEnd text cs s ≤ chunkEnd text cs (nextStart ov (chunkEnd text cs s)) := by
  by_cases hse : nextStart ov (chunkEnd text cs s) = chunkEnd text cs s
  · rw [hse]
    exact Nat.le_of_lt (chunkEnd_bounds text cs (chunkEnd text cs s) hcs).1
  · have hovlt : ov < chunkEnd text cs s ∧
        nextStart ov (chunkEnd text cs s) = chunkEnd text cs s - ov := by
      unfold nextStart at hse ⊢
      by_cases hno : ov < chunkEnd text cs s
      · rw [if_pos hno]; exact ⟨hno, rfl⟩
      · rw [if_neg hno] at hse; exact absurd rfl hse
    have hovpos : 1 ≤ ov := by
      by_contra hz
      have : ov = 0 := by omega
      rw [hovlt.2, this] at hse
      exact hse (by omega)
    rw [hovlt.2]
    by_cases hws : walkBack text s (s + cs) = s
    · -- reset case: the previous chunk ends at s + cs and no break character
      -- occurs in (s, s + cs]
      have he : chunkEnd text cs s = s + cs := by unfold chunkEnd; rw [if_pos hws]
      have hnb : ∀ j, s < j → j ≤ s + cs → isBreakAt text j = false := by
        intro j h1 h2
        exact walkBack_no_break text s (s + cs) j (by omega) h2
      rw [he]
      by_cases hw2 : walkBack text (s + cs - ov) (s + cs - ov + cs) = s + cs - ov
      · have : chunkEnd text cs (s + cs - ov) = s + cs - ov + cs := by
          unfold chunkEnd; rw [if_pos hw2]
        rw [this]; omega
      · have hc2 : chunkEnd text cs (s + cs - ov) =
            walkBack text (s + cs - ov) (s + cs - ov + cs) := by
          unfold chunkEnd; rw [if_neg hw2]
        rw [hc2]
        by_contra hno
        push_neg at hno
        have hgt : s + cs - ov < walkBack text (s + cs - ov) (s + cs - ov + cs) := by
          have := le_walkBack text (s + cs - ov) (s + cs - ov + cs) (by omega)
          omega
        have hbr := walkBack_break text (s + cs - ov) (s + cs - ov + cs) hgt
        have := hnb (walkBack text (s + cs - ov) (s + cs - ov + cs))
          (by omega) (by omega)
        rw [this] at hbr
        exact absurd hbr (by simp)
    · -- break case: the previous chunk ends at a break character, which stays
      -- inside the next window
      have he : chunkEnd text cs s = walkBack text s (s + cs) := by
        unfold chunkEnd; rw [if_neg hws]
      have hsw : s < walkBack text s (s + cs) := by
        have := le_walkBack text s (s + cs) (by omega)
        omega
      have hbrk : isBreakAt text (walkBack text s (s + cs)) = true :=
        walkBack_break text s (s + cs) hsw
      rw [he] at hovlt ⊢
      have hge := break_le_walkBack text (walkBack text s (s + cs) - ov)
        (walkBack text s (s + cs)) hbrk
        (walkBack text s (s + cs) - ov + cs) (by omega) (by omega)
      have hc2 : chunkEnd text cs (walkBack text s (s + cs) - ov) =
          walkBack text (walkBack text s (s + cs) - ov)
            (walkBack text s (s + cs) - ov + cs) := by
        unfold chunkEnd
        rw [if_neg (by omega)]
      rw [hc2]
      exact hge

/-- Whenever the chunking loop terminates, the ranges it produced are
well-formed: they start at the initial position, leave no gap, have
nondecreasing starts and ends, and reach the end of the text. -/
theorem splitRanges_good (text : List Char) (cs ov : Nat) (hcs : 0 < cs)
    (hov : ov < cs) :
    ∀ (fuel s : Nat) (rs : List (Nat × Nat)),
      splitRanges text cs ov fuel s = some rs → s < text.length →
      GoodRanges text s rs := by
  intro fuel
  induction fuel with
  | zero =>
    intro s rs h hs
    exact absurd h (by simp [splitRanges])
  | succ n ih =>
    intro s rs h hs
    simp only [splitRanges] at h
    rw [if_neg (by omega)] at h
    by_cases hterm : text.length ≤ s + cs
    · rw [if_pos hterm] at h
      have hrs := Option.some.inj h
      rw [← hrs]
      exact ⟨rfl, hs, rfl⟩
    · rw [if_neg hterm] at h
      cases hrec : splitRanges text cs ov n (nextStart ov (chunkEnd text cs s)) with
      | none =>
        rw [hrec] at h
        exact absurd h (by simp)
      | some rs2 =>
        rw [hrec] at h
        have hrs : (s, chunkEnd text cs s) :: rs2 = rs := Option.some.inj h
        rw [← hrs]
        have hsle : s ≤ nextStart ov (chunkEnd text cs s) := by
          by_contra hno
          push_neg at hno
          have hfix := chunkEnd_back_fix text cs ov s hcs hov hno
          have hnone := splitRanges_fixpoint text cs ov
            (nextStart ov (chunkEnd text cs s)) (by omega) (by omega) hfix n
          rw [hnone] at hrec
          exact absurd hrec (by simp)
        have hs2lt : nextStart ov (chunkEnd text cs s) < text.length := by
          have h1 := (chunkEnd_bounds text cs s hcs).2
          have h2 := nextStart_le ov (chunkEnd text cs s)
          omega
        have hgood2 := ih (nextStart ov (chunkEnd text cs s)) rs2 hrec hs2lt
        cases rs2 with
        | nil => exact absurd hgood2 (by simp [GoodRanges])
        | cons q rest2 =>
          have hq1 : q.1 = nextStart ov (chunkEnd text cs s) := by
            cases rest2 with
            | nil => exact hgood2.1
            | cons r rs3 => exact hgood2.1
          have hq2 : chunkEnd text cs s ≤ q.2 := by
            cases n with
            | zero => exact absurd hrec (by simp [splitRanges])
            | succ m =>
              simp only [splitRanges] at hrec
              rw [if_neg (by omega)] at hrec
              by_cases hterm2 :
                  text.length ≤ nextStart ov (chunkEnd text cs s) + cs
              · rw [if_pos hterm2] at hrec
                have hlist := Option.some.inj hrec
                injection hlist with hqe hre
                rw [← hqe]
                have := (chunkEnd_bounds text cs s hcs).2
                omega
              · rw [if_neg hterm2] at hrec
                cases hrec2 : splitRanges text cs ov m
                    (nextStart ov (chunkEnd text cs
                      (nextStart ov (chunkEnd text cs s)))) with
                | none =>
                  rw [hrec2] at hrec
                  exact absurd hrec (by simp)
                | some rs4 =>
                  rw [hrec2] at hrec
                  have hlist := Option.some.inj hrec
                  injection hlist with hqe hre
                  rw [← hqe]
                  exact chunkEnd_mono text cs ov s hcs hov
          refine ⟨rfl, (chunkEnd_bounds text cs s hcs).1,
            (by have := (chunkEnd_bounds text cs s hcs).2; omega), ?_, ?_, hq2, ?_⟩
          · rw [hq1]; exact hsle
          · rw [hq1]; exact nextStart_le ov (chunkEnd text cs s)
          · rw [hq1]; exact hgood2

/-! ### Slicing lemmas -/

theorem sliceTxt_append (text : List Char) (a b c : Nat) (h1 : a ≤ b)
    (h2 : b ≤ c) : sliceTxt text a b ++ sliceTxt text b c = sliceTxt text a c := by
  unfold sliceTxt
  have hc : c - a = (b - a) + (c - b) := by omega
  rw [hc, List.take_add]
  congr 2
  rw [List.drop_drop]
  congr 1
  omega

theorem sliceTxt_drop (text : List Char) (a b m : Nat) (h1 : a ≤ m) (h2 : m ≤ b) :
    (sliceTxt text a b).drop (m - a) = sliceTxt text m b := by
  unfold sliceTxt
  rw [List.drop_take, List.drop_drop]
  have e1 : a + (m - a) = m := by omega
  have e2 : b - a - (m - a) = b - m := by omega
  rw [e1, e2]

theorem sliceTxt_take (text : List Char) (a b m : Nat) (h1 : a ≤ m) (h2 : m ≤ b) :
    (sliceTxt text a b).take (m - a) = sliceTxt text a m := by
  unfold sliceTxt
  rw [List.take_take]
  congr 1
  omega

theorem sliceTxt_length (text : List Char) (a b : Nat) (h1 : a ≤ b)
    (h2 : b ≤ text.length) : (sliceTxt text a b).length = b - a := by
  unfold sliceTxt
  rw [List.length_take, List.length_drop]
  omega

/-! ### Reconstruction from well-formed ranges -/

theorem good_head_end_le (text : List Char) :
    ∀ (rest : List (Nat × Nat)) (q : Nat × Nat) (s : Nat),
      GoodRanges text s (q :: rest) → q.2 ≤ text.length := by
  intro rest q s hg
  cases rest with
  | nil => exact Nat.le_of_eq hg.2.2
  | cons r rs => exact hg.2.2.1

/-- Dropping each chunk's overlap with its predecessor and concatenating
yields exactly the text from `prev` to the end. -/
theorem reconstruct_aux (text : List Char) :
    ∀ (rest : List (Nat × Nat)) (p : Nat × Nat) (prev : Nat),
      GoodRanges text p.1 (p :: rest) → p.1 ≤ prev → prev ≤ p.2 →
      (List.zipWith (fun o c => c.drop o) (ovsOf prev (p :: rest))
          ((p :: rest).map (fun r => sliceTxt text r.1 r.2))).flatten
        = sliceTxt text prev text.length := by
  intro rest
  induction rest with
  | nil =>
    intro p prev hg h1 h2
    simp only [ovsOf, List.map, List.zipWith, List.flatten, List.append_nil]
    rw [sliceTxt_drop text p.1 p.2 prev h1 h2, hg.2.2]
  | cons q rest2 ih =>
    intro p prev hg h1 h2
    obtain ⟨-, hsp2, hp2len, hpq, hqp, hpq2, hg2⟩ := hg
    have hih := ih q p.2 hg2 hqp hpq2
    simp only [ovsOf, List.map, List.zipWith, List.flatten] at hih ⊢
    rw [hih]
    rw [sliceTxt_drop text p.1 p.2 prev h1 h2]
    exact sliceTxt_append text prev p.2 text.length h2 hp2len

/-- The overlap removed from each chunk is a genuine overlap with the
previous chunk. -/
theorem overlaps_of_good (text : List Char) :
    ∀ (rest : List (Nat × Nat)) (p : Nat × Nat) (prev : Nat),
      GoodRanges text p.1 (p :: rest) →
      OverlapsAgree ((p :: rest).map (fun r => sliceTxt text r.1 r.2))
        (ovsOf prev (p :: rest)) := by
  intro rest
  induction rest with
  | nil => intro p prev hg; trivial
  | cons q rest2 ih =>
    intro p prev hg
    obtain ⟨-, hsp2, hp2len, hpq, hqp, hpq2, hg2⟩ := hg
    have hq2len : q.2 ≤ text.length := good_head_end_le text rest2 q q.1 hg2
    have hclen : (sliceTxt text p.1 p.2).length = p.2 - p.1 :=
      sliceTxt_length text p.1 p.2 (Nat.le_of_lt hsp2) hp2len
    refine ⟨?_, ?_, ?_, ?_⟩
    · rw [hclen]; omega
    · rw [sliceTxt_length text q.1 q.2 (by omega) hq2len]; omega
    · rw [hclen]
      have harith : p.2 - p.1 - (p.2 - q.1) = q.1 - p.1 := by omega
      rw [harith, sliceTxt_take text q.1 q.2 p.2 hqp hpq2,
        sliceTxt_drop text p.1 p.2 q.1 hpq hqp]
    · exact ih q p.2 hg2

theorem ovsOf_length : ∀ (rs : List (Nat × Nat)) (prev : Nat),
    (ovsOf prev rs).length = rs.length := by
  intro rs
  induction rs with
  | nil => intro prev; rfl
  | cons p rest ih => intro prev; simp [ovsOf, ih p.2]

/-! ### Theorems: C7 (chunk coverage / reconstruction) -/

/-- **C7.** For a document longer than the chunk size and overlap smaller
than the chunk size, whenever `_split_text` terminates, the chunks it
produces are nonempty, consecutive chunks genuinely overlap, and removing
each chunk's overlap with its predecessor and concatenating reconstructs
the original document exactly once, with no gap. -/
theorem splitText_reconstructs (text : List Char) (cs ov fuel : Nat)
    (chunks : List (List Char)) (hov : ov < cs) (hlen : cs < text.length)
    (h : splitText text cs ov fuel = some chunks) :
    chunks ≠ [] ∧ ∃ ovs : List Nat,
      ovs.length = chunks.length ∧ ovs.head? = some 0 ∧
      OverlapsAgree chunks ovs ∧
      (List.zipWith (fun o c => c.drop o) ovs chunks).flatten = text := by
  have hcs : 0 < cs := by omega
  unfold splitText at h
  rw [if_neg (by omega)] at h
  cases hr : splitRanges text cs ov fuel 0 with
  | none => rw [hr] at h; exact absurd h (by simp)
  | some rs =>
    rw [hr] at h
    have hchunks : rs.map (fun r => sliceTxt text r.1 r.2) = chunks :=
      Option.some.inj h
    have hgood := splitRanges_good text cs ov hcs hov fuel 0 rs hr (by omega)
    cases rs with
    | nil => exact absurd hgood (by simp [GoodRanges])
    | cons p rest =>
      have hp1 : p.1 = 0 := by
        cases rest with
        | nil => exact hgood.1
        | cons q rs2 => exact hgood.1
      have hgoodp : GoodRanges text p.1 (p :: rest) := by rw [hp1]; exact hgood
      refine ⟨?_, ovsOf 0 (p :: rest), ?_, ?_, ?_, ?_⟩
      · rw [← hchunks]; simp
      · rw [← hchunks, ovsOf_length]; simp
      · simp [ovsOf]
      · rw [← hchunks]
        exact overlaps_of_good text rest p 0 hgoodp
      · rw [← hchunks]
        have hrec := reconstruct_aux text rest p 0 hgoodp (by omega) (by omega)
        rw [hrec]
        unfold sliceTxt
        simp

/-- Witness for C7 at a concrete input. -/
theorem splitText_reconstructs_witness :
    (1 < 4 ∧ 4 < (String.toList "ab ab ab ab").length ∧
      splitText (String.toList "ab ab ab ab") 4 1 20 =
        some [String.toList "ab", String.toList "b ab", String.toList "b ab",
          String.toList "b ab"]) ∧
    ([String.toList "ab", String.toList "b ab", String.toList "b ab",
        String.toList "b ab"] ≠ [] ∧ ∃ ovs : List Nat,
      ovs.length = [String.toList "ab", String.toList "b ab",
        String.toList "b ab", String.toList "b ab"].length ∧
      ovs.head? = some 0 ∧
      OverlapsAgree [String.toList "ab", String.toList "b ab",
        String.toList "b ab", String.toList "b ab"] ovs ∧
      (List.zipWith (fun o c => c.drop o) ovs
        [String.toList "ab", String.toList "b ab", String.toList "b ab",
          String.toList "b ab"]).flatten = String.toList "ab ab ab ab") :=
  ⟨⟨by decide, by decide, by decide⟩,
    splitText_reconstructs (String.toList "ab ab ab ab") 4 1 20
      [String.toList "ab", String.toList "b ab", String.toList "b ab",
        String.toList "b ab"] (by decide) (by decide) (by decide)⟩

/-! ### Theorems: C10 (the chunking loop can run forever) -/

/-- **C10 (refuted).** The `_split_text` loop does not always terminate,
even with `0 ≤ overlap < chunk_size`: on the 10-character document
`"bbbbb.bbbb"` with chunk size 5 and overlap 3 the loop moves from start 0
to start 2 and then revisits start 2 forever (the walk always stops at the
break character at index 5), so the fuelled embedding returns `none` for
every amount of fuel. -/
theorem splitText_loops_forever :
    ∀ fuel : Nat, splitText (String.toList "bbbbb.bbbb") 5 3 fuel = none := by
  intro fuel
  unfold splitText
  rw [if_neg (by decide)]
  have h : splitRanges (String.toList "bbbbb.bbbb") 5 3 fuel 0 = none := by
    cases fuel with
    | zero => rfl
    | succ n =>
      simp only [splitRanges]
      rw [if_neg (by decide), if_neg (by decide)]
      have harg : nextStart 3 (chunkEnd (String.toList "bbbbb.bbbb") 5 0) = 2 := by
        decide
      have hfix := splitRanges_fixpoint (String.toList "bbbbb.bbbb") 5 3 2
        (by decide) (by decide) (by decide) n
      rw [harg, hfix]
  rw [h]
  rfl

/-! ### Theorems: C2 (tool-call extraction) -/

/-- **C2 (refuted at the positive example).** The compiled extraction
pattern (doubled backslashes inside a raw string) only matches a literal
backslash followed by one class character, so the canonical tool-call text
`"[TOOL:calculator(expression=2+2)]"` — which contains no backslash —
produces no matches and extraction returns zero tool calls, not one.
Extraction of malformed (unbalanced-bracket) text also returns zero calls,
and the embedding is a total function, so extraction never raises. -/
theorem extract_calculator_yields_nothing (now : Nat) :
    extractToolCalls now (String.toList "[TOOL:calculator(expression=2+2)]") = []
      ∧
    extractToolCalls now (String.toList "[TOOL:calculator(expression=2+2") = [] :=
  ⟨rfl, rfl⟩

/-! ### Theorems: C3 (session tool-call ceiling) -/

theorem lookupD_setKey_same {β : Type} (m : List (String × β)) (k : String)
    (v d : β) : lookupD (setKey m k v) k d = v := by
  induction m with
  | nil => simp [setKey, lookupD]
  | cons kv rest ih =>
    unfold setKey
    by_cases h : (kv.1 == k) = true
    · rw [if_pos h]
      simp [lookupD]
    · rw [if_neg h]
      unfold lookupD
      rw [if_neg h]
      exact ih

theorem lookupD_append_nil (st : SessionCounts) (sid s : String) :
    lookupD (st ++ [(sid, ([] : List (String × Nat)))]) s [] =
      lookupD st s [] := by
  induction st with
  | nil =>
    simp only [List.nil_append, lookupD]
    split <;> rfl
  | cons kv rest ih =>
    simp only [List.cons_append, lookupD]
    split
    · rfl
    · exact ih

theorem lookupD_ensure (st : SessionCounts) (sid s : String) :
    lookupD (ensureSession st sid) s [] = lookupD st s [] := by
  unfold ensureSession
  split
  · rfl
  · exact lookupD_append_nil st sid s

theorem totalCalls_setKey_incr (counts : List (String × Nat)) (t : String) :
    totalCalls (setKey counts t (lookupD counts t 0 + 1)) =
      totalCalls counts + 1 := by
  induction counts with
  | nil => simp [setKey, lookupD, totalCalls]
  | cons kv rest ih =>
    unfold setKey lookupD
    by_cases h : (kv.1 == t) = true
    · rw [if_pos h, if_pos h]
      simp [totalCalls]
      omega
    · rw [if_neg h, if_neg h]
      simp only [totalCalls, List.map_cons, List.sum_cons] at ih ⊢
      omega

theorem sessionTotal_update (st : SessionCounts) (sid t : String) :
    sessionTotal (updateSessionToolCount st sid t) sid =
      sessionTotal st sid + 1 := by
  unfold updateSessionToolCount sessionTotal
  rw [lookupD_setKey_same, totalCalls_setKey_incr]
  rw [lookupD_ensure]

theorem runCalls_total (tools : List (String × Tool)) (sid : String) :
    ∀ (calls : List ToolCall) (st : SessionCounts)
      (acc : List (String × ToolResult)),
      sessionTotal (runCalls tools sid calls st acc).2 sid =
        sessionTotal st sid + calls.length := by
  intro calls
  induction calls with
  | nil => intro st acc; simp [runCalls]
  | cons c rest ih =>
    intro st acc
    simp only [runCalls]
    rw [ih, sessionTotal_update, List.length_cons]
    omega

/-- **C3.** When a session's cumulative tool-call count already equals the
ceiling, a nonempty authorized batch is rejected in full with the
structured limit-exceeded result, no call executes, and no session counter
changes; moreover processing can never push a session's cumulative count
above the ceiling. -/
theorem tool_limit_ceiling (tools : List (String × Tool)) (st : SessionCounts)
    (sid : String) (filtered : List ToolCall) (maxCalls : Nat)
    (hne : filtered ≠ []) (hfull : sessionTotal st sid = maxCalls) :
    (processFilteredCalls tools st sid filtered maxCalls).1 =
        ProcessOutcome.errored "Tool call limit exceeded for this session" ∧
    (∀ s t, countOf (processFilteredCalls tools st sid filtered maxCalls).2 s t =
        countOf st s t) ∧
    ∀ (st2 : SessionCounts) (calls2 : List ToolCall),
      sessionTotal st2 sid ≤ maxCalls →
      sessionTotal (processFilteredCalls tools st2 sid calls2 maxCalls).2 sid ≤
        maxCalls := by
  have hfe : filtered.isEmpty = false := by
    cases filtered with
    | nil => exact absurd rfl hne
    | cons a b => rfl
  have hlen : 0 < filtered.length := by
    cases filtered with
    | nil => exact absurd rfl hne
    | cons a b => simp
  have hse : sessionTotal (ensureSession st sid) sid = sessionTotal st sid := by
    unfold sessionTotal; rw [lookupD_ensure]
  have hdec : decide (sessionTotal (ensureSession st sid) sid +
      filtered.length ≤ maxCalls) = false := by
    rw [hse, hfull]
    simp only [decide_eq_false_iff_not]
    omega
  have hbranch : processFilteredCalls tools st sid filtered maxCalls =
      (ProcessOutcome.errored "Tool call limit exceeded for this session",
        ensureSession st sid) := by
    unfold processFilteredCalls checkToolLimits
    rw [if_neg (by simp [hfe]), hdec]
    rfl
  refine ⟨by rw [hbranch], ?_, ?_⟩
  · intro s t
    rw [hbranch]
    unfold countOf
    rw [lookupD_ensure]
  · intro st2 calls2 hle
    unfold processFilteredCalls checkToolLimits
    by_cases hfe2 : calls2.isEmpty
    · rw [if_pos (by simp [hfe2])]
      exact hle
    · rw [if_neg (by simp [hfe2])]
      have hse2 : sessionTotal (ensureSession st2 sid) sid =
          sessionTotal st2 sid := by
        unfold sessionTotal; rw [lookupD_ensure]
      by_cases hok : sessionTotal (ensureSession st2 sid) sid +
          calls2.length ≤ maxCalls
      · have hd : decide (sessionTotal (ensureSession st2 sid) sid +
            calls2.length ≤ maxCalls) = true := by simp [hok]
        rw [hd]
        show sessionTotal
            (match runCalls tools sid calls2 (ensureSession st2 sid) [] with
              | (rs, st3) => (ProcessOutcome.results rs, st3)).2 sid ≤ maxCalls
        have htot := runCalls_total tools sid calls2 (ensureSession st2 sid) []
        cases hrun : runCalls tools sid calls2 (ensureSession st2 sid) [] with
        | mk rs st3 =>
          rw [hrun] at htot
          have htot3 : sessionTotal st3 sid =
              sessionTotal (ensureSession st2 sid) sid + calls2.length := by
            simpa using htot
          show sessionTotal st3 sid ≤ maxCalls
          omega
      · have hd : decide (sessionTotal (ensureSession st2 sid) sid +
            calls2.length ≤ maxCalls) = false := by simp [hok]
        rw [hd]
        show sessionTotal (ensureSession st2 sid) sid ≤ maxCalls
        omega

/-- Witness for C3 at a concrete input: a session already at the default
ceiling of 20 rejects a one-call batch. -/
theorem tool_limit_ceiling_witness :
    (([⟨"calculator", [("expression", "2+2")], "call_0_0"⟩] :
        List ToolCall) ≠ [] ∧
      sessionTotal [("s", [("calculator", 20)])] "s" = 20) ∧
    (processFilteredCalls [] [("s", [("calculator", 20)])] "s"
        [⟨"calculator", [("expression", "2+2")], "call_0_0"⟩] 20).1 =
      ProcessOutcome.errored "Tool call limit exceeded for this session" :=
  ⟨⟨by simp, by decide⟩,
    (tool_limit_ceiling [] [("s", [("calculator", 20)])] "s"
      [⟨"calculator", [("expression", "2+2")], "call_0_0"⟩] 20
      (by simp) (by decide)).1⟩

/-! ### Theorems: C6 (retrieved context: threshold filter and length bound) -/

/-- **C6 (counterexample to the length bound).** A single document whose
content length equals the configured maximum passes the greedy fill (the
accumulator counts content only), but the returned string also carries the
`[source]` tag and separator, so the context string exceeds the maximum:
with `max_context_length = 10` and one 10-character chunk scoring 0.9
against threshold 0.7 the context is 17 characters long. -/
theorem retrieveContext_exceeds_max_len :
    ((7 : ℚ)/10 ≤ (9 : ℚ)/10) ∧
    10 < (retrieveContextCore
      [⟨String.toList "aaaaaaaaaa", "doc", (9 : ℚ)/10⟩] ((7 : ℚ)/10) 10).length := by
  have hsc : decide ((7 : ℚ)/10 ≤ (9 : ℚ)/10) = true :=
    decide_eq_true (by norm_num)
  have hfilter : List.filter (fun d => decide ((7 : ℚ)/10 ≤ d.score))
      [(⟨String.toList "aaaaaaaaaa", "doc", (9 : ℚ)/10⟩ : DocChunk)] =
      [(⟨String.toList "aaaaaaaaaa", "doc", (9 : ℚ)/10⟩ : DocChunk)] := by
    simp [hsc]
  constructor
  · norm_num
  · unfold retrieveContextCore
    rw [hfilter]
    decide

theorem buildParts_spec (maxLen : Nat) :
    ∀ (ds : List DocChunk) (acc : Nat),
      ∃ k, buildParts maxLen ds acc = (ds.take k).map docPart ∧
        acc + ((ds.take k).map fun d => d.content.length).sum ≤ max acc maxLen := by
  intro ds
  induction ds with
  | nil =>
    intro acc
    refine ⟨0, rfl, ?_⟩
    simp
  | cons d rest ih =>
    intro acc
    by_cases h : maxLen < acc + d.content.length
    · refine ⟨0, ?_, ?_⟩
      · simp [buildParts, h]
      · simp
    · obtain ⟨k, hk1, hk2⟩ := ih (acc + d.content.length)
      refine ⟨k + 1, ?_, ?_⟩
      · simp [buildParts, h, List.take_succ_cons, hk1]
      · simp only [List.take_succ_cons, List.map_cons, List.sum_cons]
        rw [Nat.max_eq_right (by omega)] at hk2
        have hmax : maxLen ≤ max acc maxLen := Nat.le_max_right acc maxLen
        omega

/-- **C6 (amended).** The context is built only from chunks at or above the
similarity threshold (a sublist of the filtered ranking), and the greedy
fill bounds the accumulated CONTENT length (the `[source]` tags and the
joiners are not counted by the source's accumulator, so the full string may
exceed the configured maximum — see the counterexample). -/
theorem retrieveContext_amended (docs : List DocChunk) (threshold : ℚ)
    (maxLen : Nat) :
    ∃ sel : List DocChunk,
      List.Sublist sel docs ∧
      (∀ d ∈ sel, threshold ≤ d.score) ∧
      retrieveContextCore docs threshold maxLen = joinSep (sel.map docPart) ∧
      ((sel.map fun d => d.content.length).sum ≤ maxLen) := by
  by_cases hf : (docs.filter fun d => decide (threshold ≤ d.score)).isEmpty
  · refine ⟨[], List.nil_sublist docs, by simp, ?_, by simp⟩
    unfold retrieveContextCore
    rw [if_pos hf]
    rfl
  · obtain ⟨k, hk1, hk2⟩ :=
      buildParts_spec maxLen (docs.filter fun d => decide (threshold ≤ d.score)) 0
    refine ⟨(docs.filter fun d => decide (threshold ≤ d.score)).take k,
      ?_, ?_, ?_, ?_⟩
    · exact (List.take_sublist _ _).trans (List.filter_sublist docs)
    · intro d hd
      have hmem := List.mem_of_mem_take hd
      exact of_decide_eq_true (List.mem_filter.mp hmem).2
    · unfold retrieveContextCore
      rw [if_neg hf, hk1]
    · simpa using hk2

/-! ### Theorems: C5 (deterministic fallback candidate order) -/

theorem dedupSeen_foldl (l : List String) :
    ∀ (seen acc : List String), (∀ x, x ∈ seen ↔ x ∈ acc) →
      acc ++ dedupSeen l seen =
        l.foldl (fun a x => if x ∈ a then a else a ++ [x]) acc := by
  induction l with
  | nil => intro seen acc h; simp [dedupSeen]
  | cons m rest ih =>
    intro seen acc h
    simp only [dedupSeen, List.foldl_cons]
    by_cases hm : m ∈ seen
    · rw [if_pos hm, if_pos ((h m).mp hm)]
      exact ih seen acc h
    · rw [if_neg hm, if_neg (fun hx => hm ((h m).mpr hx))]
      have h2 : ∀ x, x ∈ m :: seen ↔ x ∈ acc ++ [m] := by
        intro x
        simp [List.mem_cons, List.mem_append, h x, or_comm]
      calc acc ++ m :: dedupSeen rest (m :: seen)
          = (acc ++ [m]) ++ dedupSeen rest (m :: seen) := by simp
        _ = rest.foldl (fun a x => if x ∈ a then a else a ++ [x]) (acc ++ [m]) :=
            ih (m :: seen) (acc ++ [m]) h2

theorem dedupSeen_nodup : ∀ (l seen : List String),
    (dedupSeen l seen).Nodup ∧ ∀ x ∈ dedupSeen l seen, x ∉ seen := by
  intro l
  induction l with
  | nil => intro seen; exact ⟨List.nodup_nil, by simp [dedupSeen]⟩
  | cons m rest ih =>
    intro seen
    by_cases hm : m ∈ seen
    · simp only [dedupSeen, if_pos hm]
      exact ih seen
    · simp only [dedupSeen, if_neg hm]
      obtain ⟨hnd, hns⟩ := ih (m :: seen)
      constructor
      · rw [List.nodup_cons]
        exact ⟨fun hmem => hns m hmem (List.mem_cons_self m seen), hnd⟩
      · intro x hx
        rcases List.mem_cons.mp hx with rfl | hx2
        · exact hm
        · intro hxs
          exact hns x hx2 (List.mem_cons_of_mem m hxs)

/-- **C5.** The candidate try-order is exactly: caller-preferred models,
then the primary provider's models, then each configured fallback
provider's models in order (as `"provider:model"` keys), de-duplicated
keeping first occurrences; being a pure function of the configuration and
the preferred list, the same input always yields the same order, and the
result has no duplicates. -/
theorem candidates_order (rc : RouterConfig) (preferred : List String) :
    buildCandidates rc preferred =
      firstOccurrences
        (preferred ++
          (modelsOf rc rc.primaryProvider).map
            (fun m => rc.primaryProvider ++ ":" ++ m) ++
          (rc.fallbackProviders.map
            (fun p => (modelsOf rc p).map (fun m => p ++ ":" ++ m))).flatten) ∧
    (buildCandidates rc preferred).Nodup := by
  constructor
  · unfold buildCandidates firstOccurrences
    have h := dedupSeen_foldl
      (preferred ++
        (modelsOf rc rc.primaryProvider).map
          (fun m => rc.primaryProvider ++ ":" ++ m) ++
        (rc.fallbackProviders.map
          (fun p => (modelsOf rc p).map (fun m => p ++ ":" ++ m))).flatten)
      [] [] (by simp)
    simpa using h
  · unfold buildCandidates
    exact (dedupSeen_nodup _ []).1

/-! ### Step lemmas for the candidate loop -/

theorem tryModels_cons_noconfig (env : RouterEnv)
    (cfgs : List (String × ModelConfig)) (m : String) (rest : List String)
    (st : HealthState) (i : Nat) (le : Option String)
    (hc : lookupOpt cfgs m = none) :
    tryModels env cfgs (m :: rest) st i le = tryModels env cfgs rest st i le := by
  simp only [tryModels, hc]

theorem tryModels_cons_raise (env : RouterEnv)
    (cfgs : List (String × ModelConfig)) (m : String) (rest : List String)
    (st : HealthState) (i : Nat) (le : Option String) (cfg : ModelConfig)
    (hc : lookupOpt cfgs m = some cfg)
    (hH : isProviderHealthy env cfgs st (env.clock i) cfg.provider = none) :
    tryModels env cfgs (m :: rest) st i le = (none, st, []) := by
  simp only [tryModels, hc, hH]

theorem tryModels_cons_unhealthy (env : RouterEnv)
    (cfgs : List (String × ModelConfig)) (m : String) (rest : List String)
    (st st1 : HealthState) (i : Nat) (le : Option String) (cfg : ModelConfig)
    (hc : lookupOpt cfgs m = some cfg)
    (hH : isProviderHealthy env cfgs st (env.clock i) cfg.provider =
      some (false, st1)) :
    tryModels env cfgs (m :: rest) st i le =
      tryModels env cfgs rest st1 (i + 1) le := by
  simp only [tryModels, hc, hH, Bool.false_eq_true, if_false]

theorem tryModels_cons_success (env : RouterEnv)
    (cfgs : List (String × ModelConfig)) (m : String) (rest : List String)
    (st st1 : HealthState) (i : Nat) (le : Option String) (cfg : ModelConfig)
    (hc : lookupOpt cfgs m = some cfg)
    (hH : isProviderHealthy env cfgs st (env.clock i) cfg.provider =
      some (true, st1))
    (hs : (env.complete m).success = true) :
    tryModels env cfgs (m :: rest) st i le =
      (some (env.complete m), st1, [m]) := by
  simp only [tryModels, hc, hH, hs, if_true]

theorem tryModels_cons_fail (env : RouterEnv)
    (cfgs : List (String × ModelConfig)) (m : String) (rest : List String)
    (st st1 : HealthState) (i : Nat) (le : Option String) (cfg : ModelConfig)
    (hc : lookupOpt cfgs m = some cfg)
    (hH : isProviderHealthy env cfgs st (env.clock i) cfg.provider =
      some (true, st1))
    (hs : (env.complete m).success = false) :
    tryModels env cfgs (m :: rest) st i le =
      ((tryModels env cfgs rest st1 (i + 1) (env.complete m).error).1,
       (tryModels env cfgs rest st1 (i + 1) (env.complete m).error).2.1,
       m :: (tryModels env cfgs rest st1 (i + 1) (env.complete m).error).2.2) := by
  simp only [tryModels, hc, hH, hs, Bool.false_eq_true, if_false, if_true]

theorem lastErrorOf_cons (env : RouterEnv) (m : String) (tr : List String)
    (dflt : Option String) :
    lastErrorOf env (m :: tr) dflt = lastErrorOf env tr (env.complete m).error := by
  unfold lastErrorOf
  cases tr with
  | nil => rfl
  | cons x xs =>
    rw [List.getLast?_cons_cons]
    cases hgl : (x :: xs).getLast? with
    | none =>
      rw [List.getLast?_eq_none_iff] at hgl
      cases hgl
    | some y => rfl

/-! ### Theorems: C1 (total-exhaustion behaviour of `get_completion`) -/

theorem firstConfigFor_mem (cfgs : List (String × ModelConfig)) (p : String)
    (c : ModelConfig) (h : firstConfigFor cfgs p = some c) :
    (∃ kv ∈ cfgs, kv.2 = c) ∧ c.provider = p := by
  unfold firstConfigFor at h
  cases hf : cfgs.find? (fun kv => kv.2.provider == p) with
  | none => rw [hf] at h; exact absurd h (by simp)
  | some kv =>
    rw [hf] at h
    have hkv : kv.2 = c := Option.some.inj h
    refine ⟨⟨kv, List.mem_of_find?_eq_some hf, hkv⟩, ?_⟩
    have hp := List.find?_some hf
    rw [← hkv]
    simpa using hp

theorem isProviderHealthy_some (env : RouterEnv)
    (cfgs : List (String × ModelConfig)) (st : HealthState) (now : Nat)
    (p : String)
    (hprov : ∀ kv ∈ cfgs, builtinProviders.contains kv.2.provider = true) :
    ∃ r, isProviderHealthy env cfgs st now p = some r := by
  have hp : ∃ r, probeProvider env cfgs st now p = some r := by
    unfold probeProvider
    cases hf : firstConfigFor cfgs p with
    | none => exact ⟨(false, st), rfl⟩
    | some c =>
      obtain ⟨⟨kv, hkvmem, hkv2⟩, hcp⟩ := firstConfigFor_mem cfgs p c hf
      have hb := hprov kv hkvmem
      rw [hkv2, hcp] at hb
      rw [if_pos hb]
      exact ⟨_, rfl⟩
  unfold isProviderHealthy
  cases h1 : lookupOpt st.healthCache p with
  | none => exact hp
  | some hh =>
    cases h2 : lookupOpt st.lastCheck p with
    | none => exact hp
    | some t =>
      by_cases hfresh : now - t < 300
      · refine ⟨(hh, st), ?_⟩
        show (if now - t < 300 then some (hh, st)
            else probeProvider env cfgs st now p) = some (hh, st)
        rw [if_pos hfresh]
      · obtain ⟨r, hr⟩ := hp
        refine ⟨r, ?_⟩
        show (if now - t < 300 then some (hh, st)
            else probeProvider env cfgs st now p) = some r
        rw [if_neg hfresh]
        exact hr

theorem tryModels_all_fail (env : RouterEnv)
    (cfgs : List (String × ModelConfig))
    (hfail : ∀ m, (env.complete m).success = false)
    (hprov : ∀ kv ∈ cfgs, builtinProviders.contains kv.2.provider = true) :
    ∀ (l : List String) (st : HealthState) (i : Nat) (le : Option String),
      ∃ st2 tr, tryModels env cfgs l st i le =
        (some (allFailedResponse (lastErrorOf env tr le)), st2, tr) := by
  intro l
  induction l with
  | nil => exact fun st i le => ⟨st, [], rfl⟩
  | cons m rest ih =>
    intro st i le
    cases hc : lookupOpt cfgs m with
    | none =>
      rw [tryModels_cons_noconfig env cfgs m rest st i le hc]
      exact ih st i le
    | some cfg =>
      obtain ⟨⟨h, st1⟩, hH⟩ :=
        isProviderHealthy_some env cfgs st (env.clock i) cfg.provider hprov
      cases h with
      | false =>
        rw [tryModels_cons_unhealthy env cfgs m rest st st1 i le cfg hc hH]
        exact ih st1 (i + 1) le
      | true =>
        rw [tryModels_cons_fail env cfgs m rest st st1 i le cfg hc hH (hfail m)]
        obtain ⟨st2, tr, htr⟩ := ih st1 (i + 1) (env.complete m).error
        rw [htr]
        exact ⟨st2, m :: tr, by rw [lastErrorOf_cons]⟩

/-- **C1 (amended).** Provided every configured model belongs to one of the
three built-in providers (`openai`, `anthropic`, `local`) — otherwise the
un-guarded health-check lookup `self.providers[provider_name]` raises
`KeyError` out of `get_completion`, see the counterexample — when every
completion attempt fails, `get_completion` returns (never raises) the
synthetic failure response: success flag false, the safe apology string as
content, and the error field carrying the last observed provider error. -/
theorem router_all_fail_synthetic (env : RouterEnv) (rc : RouterConfig)
    (cfgs : List (String × ModelConfig)) (preferred : List String)
    (st : HealthState)
    (hfail : ∀ m, (env.complete m).success = false)
    (hprov : ∀ kv ∈ cfgs, builtinProviders.contains kv.2.provider = true) :
    ∃ st2 tr,
      getCompletion env rc cfgs preferred st =
        (some (allFailedResponse (lastErrorOf env tr none)), st2, tr) ∧
      (allFailedResponse (lastErrorOf env tr none)).success = false ∧
      (allFailedResponse (lastErrorOf env tr none)).content =
        "I'm sorry, I'm experiencing technical difficulties. Please try again later." ∧
      (allFailedResponse (lastErrorOf env tr none)).error =
        some ("All models failed. Last error: " ++ optStr (lastErrorOf env tr none)) := by
  obtain ⟨st2, tr, htr⟩ :=
    tryModels_all_fail env cfgs hfail hprov (buildCandidates rc preferred) st 0 none
  exact ⟨st2, tr, htr, rfl, rfl, rfl⟩

/-- **C1 (counterexample to "never raises").** With a configured provider
outside the built-in registry (here `"mistral"`), the health-check path
executes `self.providers["mistral"]`, which is not inside any try block, so
`get_completion` raises `KeyError` to the caller (modelled as `none`). -/
theorem router_raises_on_unknown_provider :
    (getCompletion
      ⟨fun _ => ⟨"", "m1", "mistral", none, false, some "boom"⟩,
        fun _ => true, fun _ => 0⟩
      ⟨"mistral", [], [("mistral", ["m1"])]⟩
      [("mistral:m1", ⟨"mistral", "m1", none, "", 4096, 30⟩)]
      [] ⟨[], []⟩).1 = none := by
  rfl

/-- Witness for C1 at a concrete configuration whose providers are all
built-in and whose completions all fail. -/
theorem router_all_fail_synthetic_witness :
    ∃ st2 tr,
      getCompletion
        ⟨fun _ => ⟨"", "m", "openai", none, false, some "HTTP 500"⟩,
          fun _ => true, fun _ => 0⟩
        ⟨"openai", ["local"], [("openai", ["gpt-4"]), ("local", ["llama"])]⟩
        [("openai:gpt-4", ⟨"openai", "gpt-4", none, "", 4096, 30⟩),
         ("local:llama", ⟨"local", "llama", none, "", 4096, 30⟩)]
        [] ⟨[], []⟩ =
        (some (allFailedResponse (lastErrorOf
          ⟨fun _ => ⟨"", "m", "openai", none, false, some "HTTP 500"⟩,
            fun _ => true, fun _ => 0⟩ tr none)), st2, tr) := by
  obtain ⟨st2, tr, h1, -, -, -⟩ :=
    router_all_fail_synthetic
      ⟨fun _ => ⟨"", "m", "openai", none, false, some "HTTP 500"⟩,
        fun _ => true, fun _ => 0⟩
      ⟨"openai", ["local"], [("openai", ["gpt-4"]), ("local", ["llama"])]⟩
      [("openai:gpt-4", ⟨"openai", "gpt-4", none, "", 4096, 30⟩),
       ("local:llama", ⟨"local", "llama", none, "", 4096, 30⟩)]
      [] ⟨[], []⟩ (fun m => rfl) (by decide)
  exact ⟨st2, tr, h1⟩

/-! ### Theorems: C4 (fresh negative health cache is honoured) -/

theorem lookupOpt_setKey_ne {β : Type} (m : List (String × β)) (k k2 : String)
    (v : β) (h : k2 ≠ k) : lookupOpt (setKey m k2 v) k = lookupOpt m k := by
  induction m with
  | nil =>
    simp only [setKey, lookupOpt]
    rw [if_neg (by simpa using h)]
  | cons kv rest ih =>
    simp only [setKey]
    by_cases hk : (kv.1 == k2) = true
    · rw [if_pos hk]
      simp only [lookupOpt]
      rw [if_neg (by simpa using h)]
      have hkv : kv.1 = k2 := by simpa using hk
      rw [if_neg (by simp [hkv]; simpa using h)]
    · rw [if_neg hk]
      simp only [lookupOpt]
      by_cases hkk : (kv.1 == k) = true
      · rw [if_pos hkk, if_pos hkk]
      · rw [if_neg hkk, if_neg hkk]
        exact ih

theorem probeProvider_preserves (env : RouterEnv)
    (cfgs : List (String × ModelConfig)) (st : HealthState) (now : Nat)
    (q p : String) (hne : q ≠ p) (h2 : Bool) (st2 : HealthState)
    (hp : probeProvider env cfgs st now q = some (h2, st2)) :
    lookupOpt st2.healthCache p = lookupOpt st.healthCache p ∧
      lookupOpt st2.lastCheck p = lookupOpt st.lastCheck p := by
  unfold probeProvider at hp
  cases hf : firstConfigFor cfgs q with
  | none =>
    rw [hf] at hp
    have hst : st = st2 := congrArg Prod.snd (Option.some.inj hp)
    rw [← hst]
    exact ⟨rfl, rfl⟩
  | some c =>
    rw [hf] at hp
    by_cases hb : builtinProviders.contains q = true
    · rw [if_pos hb] at hp
      have hst : st2 =
          ⟨setKey st.healthCache q (env.probe q), setKey st.lastCheck q now⟩ :=
        (congrArg Prod.snd (Option.some.inj hp)).symm
      rw [hst]
      exact ⟨lookupOpt_setKey_ne st.healthCache p q (env.probe q) hne,
        lookupOpt_setKey_ne st.lastCheck p q now hne⟩
    · rw [if_neg hb] at hp
      exact absurd hp (by simp)

theorem isProviderHealthy_preserves (env : RouterEnv)
    (cfgs : List (String × ModelConfig)) (st : HealthState) (now : Nat)
    (q p : String) (hne : q ≠ p) (h : Bool) (st1 : HealthState)
    (hH : isProviderHealthy env cfgs st now q = some (h, st1)) :
    lookupOpt st1.healthCache p = lookupOpt st.healthCache p ∧
      lookupOpt st1.lastCheck p = lookupOpt st.lastCheck p := by
  unfold isProviderHealthy at hH
  cases h1 : lookupOpt st.healthCache q with
  | none =>
    rw [h1] at hH
    exact probeProvider_preserves env cfgs st now q p hne h st1 hH
  | some hh =>
    rw [h1] at hH
    cases h2 : lookupOpt st.lastCheck q with
    | none =>
      rw [h2] at hH
      exact probeProvider_preserves env cfgs st now q p hne h st1 hH
    | some t =>
      rw [h2] at hH
      have hH2 : (if now - t < 300 then some (hh, st)
          else probeProvider env cfgs st now q) = some (h, st1) := hH
      by_cases hfresh : now - t < 300
      · rw [if_pos hfresh] at hH2
        have hst : st = st1 := congrArg Prod.snd (Option.some.inj hH2)
        rw [← hst]
        exact ⟨rfl, rfl⟩
      · rw [if_neg hfresh] at hH2
        exact probeProvider_preserves env cfgs st now q p hne h st1 hH2

theorem tryModels_skips_fresh_unhealthy (env : RouterEnv)
    (cfgs : List (String × ModelConfig)) (p : String) (t : Nat)
    (hfresh : ∀ j, env.clock j - t < 300) :
    ∀ (l : List String) (st : HealthState) (i : Nat) (le : Option String),
      lookupOpt st.healthCache p = some false →
      lookupOpt st.lastCheck p = some t →
      ∀ m ∈ (tryModels env cfgs l st i le).2.2,
        ∀ cfg, lookupOpt cfgs m = some cfg → cfg.provider ≠ p := by
  intro l
  induction l with
  | nil =>
    intro st i le hc ht m hm
    simp [tryModels] at hm
  | cons m rest ih =>
    intro st i le hc ht
    cases hcfg : lookupOpt cfgs m with
    | none =>
      rw [tryModels_cons_noconfig env cfgs m rest st i le hcfg]
      exact ih st i le hc ht
    | some cfg =>
      by_cases hpp : cfg.provider = p
      · have hH : isProviderHealthy env cfgs st (env.clock i) cfg.provider =
            some (false, st) := by
          rw [hpp]
          unfold isProviderHealthy
          rw [hc, ht]
          have hif : (if env.clock i - t < 300 then some (false, st)
              else probeProvider env cfgs st (env.clock i) p) =
              some (false, st) := by
            rw [if_pos (hfresh i)]
          exact hif
        rw [tryModels_cons_unhealthy env cfgs m rest st st i le cfg hcfg hH]
        exact ih st (i + 1) le hc ht
      · cases hH : isProviderHealthy env cfgs st (env.clock i) cfg.provider with
        | none =>
          rw [tryModels_cons_raise env cfgs m rest st i le cfg hcfg hH]
          intro m2 hm2
          simp at hm2
        | some pr =>
          obtain ⟨h, st1⟩ := pr
          obtain ⟨hc1, ht1⟩ := isProviderHealthy_preserves env cfgs st
            (env.clock i) cfg.provider p hpp h st1 hH
          cases h with
          | false =>
            rw [tryModels_cons_unhealthy env cfgs m rest st st1 i le cfg hcfg hH]
            exact ih st1 (i + 1) le (hc1.trans hc) (ht1.trans ht)
          | true =>
            by_cases hs : (env.complete m).success = true
            · rw [tryModels_cons_success env cfgs m rest st st1 i le cfg hcfg
                hH hs]
              intro m2 hm2 cfg2 hcfg2
              simp at hm2
              subst hm2
              rw [hcfg] at hcfg2
              rw [← Option.some.inj hcfg2]
              exact hpp
            · have hsf : (env.complete m).success = false := by
                revert hs
                cases (env.complete m).success <;> simp
              rw [tryModels_cons_fail env cfgs m rest st st1 i le cfg hcfg
                hH hsf]
              intro m2 hm2 cfg2 hcfg2
              rcases List.mem_cons.mp hm2 with rfl | hm3
              · rw [hcfg] at hcfg2
                rw [← Option.some.inj hcfg2]
                exact hpp
              · exact ih st1 (i + 1) (env.complete m).error (hc1.trans hc)
                  (ht1.trans ht) m2 hm3 cfg2 hcfg2

/-- **C4.** If a provider's cached health entry is negative and every clock
reading during the routing call is within the 5-minute TTL of the entry,
`get_completion` never invokes a completion request on any model belonging
to that provider. -/
theorem router_skips_fresh_unhealthy_provider (env : RouterEnv)
    (rc : RouterConfig) (cfgs : List (String × ModelConfig))
    (preferred : List String) (st : HealthState) (p : String) (t : Nat)
    (hc : lookupOpt st.healthCache p = some false)
    (ht : lookupOpt st.lastCheck p = some t)
    (hfresh : ∀ j, env.clock j - t < 300) :
    ∀ m ∈ (getCompletion env rc cfgs preferred st).2.2,
      ∀ cfg, lookupOpt cfgs m = some cfg → cfg.provider ≠ p :=
  tryModels_skips_fresh_unhealthy env cfgs p t hfresh
    (buildCandidates rc preferred) st 0 none hc ht

/-- Witness for C4 at a concrete state: "openai" is cached unhealthy at
time 0, the clock always reads 0, so no openai model is attempted. -/
theorem router_skips_fresh_unhealthy_witness :
    lookupOpt (HealthState.mk [("openai", false)] [("openai", 0)]).healthCache
        "openai" = some false ∧
    ∀ m ∈ (getCompletion
        ⟨fun _ => ⟨"ok", "m", "x", none, true, none⟩, fun _ => true, fun _ => 0⟩
        ⟨"openai", ["local"], [("openai", ["gpt-4"]), ("local", ["llama"])]⟩
        [("openai:gpt-4", ⟨"openai", "gpt-4", none, "", 4096, 30⟩),
         ("local:llama", ⟨"local", "llama", none, "", 4096, 30⟩)]
        [] ⟨[("openai", false)], [("openai", 0)]⟩).2.2,
      ∀ cfg, lookupOpt
          [("openai:gpt-4", (⟨"openai", "gpt-4", none, "", 4096, 30⟩ : ModelConfig)),
           ("local:llama", ⟨"local", "llama", none, "", 4096, 30⟩)] m = some cfg →
        cfg.provider ≠ "openai" :=
  ⟨rfl,
    router_skips_fresh_unhealthy_provider
      ⟨fun _ => ⟨"ok", "m", "x", none, true, none⟩, fun _ => true, fun _ => 0⟩
      ⟨"openai", ["local"], [("openai", ["gpt-4"]), ("local", ["llama"])]⟩
      [("openai:gpt-4", ⟨"openai", "gpt-4", none, "", 4096, 30⟩),
       ("local:llama", ⟨"local", "llama", none, "", 4096, 30⟩)]
      [] ⟨[("openai", false)], [("openai", 0)]⟩ "openai" 0 rfl rfl
      (fun j => (by decide : (0 : Nat) - 0 < 300))⟩
